import Mathlib

set_option maxHeartbeats 1000000

namespace Tools

/-! ## Character-level models of the JavaScript string primitives used by the tools.

The tools (SplitPDF.tsx, MergePDF.tsx, the rotate tool) manipulate page-range
text with `String.prototype.split`, `trim` and `parseInt`.  We model those
primitives on `List Char`, faithfully to their JavaScript semantics. -/

/-- JavaScript whitespace characters recognised by `trim` / `parseInt`
(the common ASCII subset). -/
def isWS (c : Char) : Bool :=
  c = ' ' ∨ c = '\t' ∨ c = '\n' ∨ c = '\r' ∨ c = '\x0b' ∨ c = '\x0c'

/-- `s.trim()`: drop whitespace from both ends. -/
def jsTrim (cs : List Char) : List Char :=
  ((cs.dropWhile isWS).reverse.dropWhile isWS).reverse

/-- `s.split(sep)` for a single-character separator: JavaScript semantics,
so the empty string splits to `[""]` and separators at the ends produce
empty fields. -/
def splitOnChar (c : Char) : List Char → List (List Char)
  | [] => [[]]
  | x :: xs =>
    if x = c then [] :: splitOnChar c xs
    else
      match splitOnChar c xs with
      | [] => [[x]]
      | h :: t => (x :: h) :: t

/-- Decimal digit character test. -/
def isDigitCh (c : Char) : Bool := '0' ≤ c ∧ c ≤ '9'

/-- Hexadecimal digit character test. -/
def isHexCh (c : Char) : Bool :=
  isDigitCh c ∨ ('a' ≤ c ∧ c ≤ 'f') ∨ ('A' ≤ c ∧ c ≤ 'F')

def isRadixDigit (b : Nat) (c : Char) : Bool :=
  if b = 16 then isHexCh c else isDigitCh c

/-- Numeric value of a digit character (decimal or hex). -/
def hexVal (c : Char) : Nat :=
  if isDigitCh c then c.toNat - 48
  else if 'a' ≤ c ∧ c ≤ 'f' then c.toNat - 87
  else c.toNat - 55

/-- Parse a maximal leading run of base-`b` digits; `none` when the run is
empty (JavaScript `NaN`). -/
def parseRun (b : Nat) (cs : List Char) : Option Nat :=
  let ds := cs.takeWhile (isRadixDigit b)
  if ds.isEmpty then none else some (ds.foldl (fun a c => a * b + hexVal c) 0)

/-- After sign handling, `parseInt` with no radix argument auto-detects a
`0x` / `0X` prefix (hexadecimal) and otherwise parses decimal. -/
def parseDigitsRun (cs : List Char) : Option Nat :=
  match cs with
  | c0 :: c1 :: rest =>
    if c0 = '0' ∧ (c1 = 'x' ∨ c1 = 'X') then parseRun 16 rest else parseRun 10 cs
  | _ => parseRun 10 cs

/-- JavaScript `parseInt(s)`: skip leading whitespace, optional sign,
then a digit run; `none` models `NaN`. -/
def jsParseIntChars (cs : List Char) : Option Int :=
  match cs.dropWhile isWS with
  | [] => none
  | c :: rest =>
    if c = '-' then (parseDigitsRun rest).map (fun n => -(n : Int))
    else if c = '+' then (parseDigitsRun rest).map (fun n => (n : Int))
    else (parseDigitsRun (c :: rest)).map (fun n => (n : Int))

def jsParseInt (s : String) : Option Int := jsParseIntChars s.toList

/-- Little-endian decimal digits of `n`, by fuelled structural recursion
(kernel-reducible; proved equal to `Nat.digits 10 n` below). -/
def decAux : Nat → Nat → List Nat
  | 0, _ => []
  | _, 0 => []
  | fuel + 1, n + 1 => ((n + 1) % 10) :: decAux fuel ((n + 1) / 10)

def decDigitsRev (n : Nat) : List Nat := decAux n n

/-- The digit character for a digit value. -/
def digitCh (d : Nat) : Char :=
  match d with
  | 0 => '0' | 1 => '1' | 2 => '2' | 3 => '3' | 4 => '4'
  | 5 => '5' | 6 => '6' | 7 => '7' | 8 => '8' | _ => '9'

/-- The decimal representation of `n` as JavaScript template interpolation
produces it (big-endian digit characters). -/
def decChars (n : Nat) : List Char := (decDigitsRev n).reverse.map digitCh

theorem decAux_eq_digits : ∀ fuel n, n ≤ fuel → decAux fuel n = Nat.digits 10 n := by
  intro fuel
  induction fuel with
  | zero =>
    intro n hn
    interval_cases n
    simp [decAux]
  | succ fuel ih =>
    intro n hn
    match n with
    | 0 => simp [decAux]
    | m + 1 =>
      rw [Nat.digits_def' (by norm_num : 1 < 10) (Nat.succ_pos m)]
      show ((m + 1) % 10) :: decAux fuel ((m + 1) / 10) = _
      rw [ih ((m + 1) / 10) (by omega)]

theorem decDigitsRev_eq_digits (n : Nat) : decDigitsRev n = Nat.digits 10 n := by
  exact decAux_eq_digits n n le_rfl

/-! ## PageSelectionModel: `parseRangeText` and `updateRangeFromSet` (SplitPDF.tsx)

The selection set is a JavaScript `Set<number>` of 0-based page indices;
we model it as a duplicate-free `List Nat` in insertion order, since
`Array.from(set)` enumerates a JS `Set` in insertion order. -/

/-- `Set.prototype.add`: append if not already present. -/
def setAdd (l : List Nat) (x : Nat) : List Nat := if x ∈ l then l else l ++ [x]

/-- The inner loop of `parseRangeText` for a token `a-b`:
`for (let i = Math.min(start, end); i <= Math.max(start, end); i++)
   if (i > 0 && i <= max) pages.add(i - 1)`. -/
def addRange (l : List Nat) (s e : Int) (bound : Nat) : List Nat :=
  let lo := min s e
  let hi := max s e
  (List.range (hi - lo + 1).toNat).foldl
    (fun acc (k : Nat) =>
      let i : Int := lo + (k : Int)
      if 0 < i ∧ i ≤ (bound : Int) then setAdd acc (i - 1).toNat else acc) l

/-- One step of the `parts.forEach` loop of `parseRangeText`: a token with a
hyphen contributes the clipped inclusive range between its two endpoints
(in either order); any other token contributes the single 1-based page it
parses to, when it is in range; invalid tokens are silently ignored. -/
def applyToken (bound : Nat) (acc : List Nat) (part : List Char) : List Nat :=
  if part.contains '-' then
    let pieces := splitOnChar '-' part
    match jsParseIntChars (pieces.getD 0 []), jsParseIntChars (pieces.getD 1 []) with
    | some s, some e => addRange acc s e bound
    | _, _ => acc
  else
    match jsParseIntChars part with
    | some p => if 0 < p ∧ p ≤ (bound : Int) then setAdd acc (p - 1).toNat else acc
    | none => acc

/-- `parseRangeText(text, max)` from SplitPDF.tsx: split on commas, trim each
part, accumulate valid tokens into a set, and return the 0-based indices
sorted ascending. -/
def parseRangeTextChars (cs : List Char) (bound : Nat) : List Nat :=
  let parts := (splitOnChar ',' cs).map jsTrim
  List.insertionSort (· ≤ ·) (parts.foldl (applyToken bound) [])

def parseRangeText (text : String) (bound : Nat) : List Nat :=
  parseRangeTextChars text.toList bound

/-- The token emitted by `updateRangeFromSet` for a maximal consecutive run
`start..end` of selected 0-based indices: `start === end ? start+1 :
(start+1)-(end+1)` rendered in decimal. -/
def rangeToken (s e : Nat) : List Char :=
  if s = e then decChars (s + 1) else decChars (s + 1) ++ '-' :: decChars (e + 1)

/-- The run-merging loop of `updateRangeFromSet` over the (sorted, strictly
increasing) tail, carrying the current run `start..end`. -/
def mergeRuns (s e : Nat) : List Nat → List (List Char)
  | [] => [rangeToken s e]
  | x :: xs => if x = e + 1 then mergeRuns s x xs else rangeToken s e :: mergeRuns x x xs

/-- `ranges.join(', ')`. -/
def joinSep (sep : List Char) : List (List Char) → List Char
  | [] => []
  | [t] => t
  | t :: ts => t ++ sep ++ joinSep sep ts

/-- `updateRangeFromSet` (SplitPDF.tsx): sort the selected set ascending,
merge consecutive runs into hyphenated tokens, and join with `", "`; the
empty set yields the empty string. -/
def toTextRangeChars (S : List Nat) : List Char :=
  match List.insertionSort (· ≤ ·) S.dedup with
  | [] => []
  | x :: xs => joinSep [',', ' '] (mergeRuns x x xs)

def toTextRange (S : List Nat) : String := String.mk (toTextRangeChars S)

/-! ### Lemmas about the character-level primitives -/

theorem splitOnChar_ne_nil (c : Char) (xs : List Char) : splitOnChar c xs ≠ [] := by
  induction xs with
  | nil => simp [splitOnChar]
  | cons x xs ih =>
    simp only [splitOnChar]
    split
    · simp
    · match h : splitOnChar c xs with
      | [] => exact absurd h ih
      | a :: t => simp

theorem splitOnChar_append (c : Char) (xs ys : List Char) (hx : c ∉ xs)
    (h : List Char) (t : List (List Char)) (hys : splitOnChar c ys = h :: t) :
    splitOnChar c (xs ++ ys) = (xs ++ h) :: t := by
  induction xs with
  | nil => simpa using hys
  | cons a xs ih =>
    have hac : a ≠ c := fun hh => hx (hh ▸ List.mem_cons_self a xs)
    have hxs : c ∉ xs := fun hh => hx (List.mem_cons_of_mem a hh)
    simp only [List.cons_append, splitOnChar, if_neg hac, List.append_eq, ih hxs]

theorem splitOnChar_of_not_mem (c : Char) (xs : List Char) (hx : c ∉ xs) :
    splitOnChar c xs = [xs] := by
  have := splitOnChar_append c xs [] hx [] [] rfl
  simpa using this

theorem splitOnChar_cons_sep (c : Char) (ys : List Char) :
    splitOnChar c (c :: ys) = [] :: splitOnChar c ys := by
  simp [splitOnChar]

/-- A digit character is distinct from any character that is not a digit
(used for the separator, sign and whitespace characters). -/
theorem ne_of_isDigitCh {c : Char} (h : isDigitCh c = true) {d : Char}
    (hd : isDigitCh d = false) : c ≠ d := by
  intro hh; subst hh; rw [h] at hd; exact Bool.noConfusion hd

theorem isWS_eq_false_of_isDigitCh {c : Char} (h : isDigitCh c = true) :
    isWS c = false := by
  by_contra hws
  rw [Bool.not_eq_false] at hws
  simp only [isWS, Bool.or_eq_true, decide_eq_true_eq] at hws
  rcases hws with rfl | rfl | rfl | rfl | rfl | rfl <;> exact absurd h (by decide)

theorem dropWhile_eq_self_of_head {α : Type} (p : α → Bool) (x : α) (xs : List α)
    (h : p x = false) : (x :: xs).dropWhile p = x :: xs := by
  simp [List.dropWhile, h]

theorem takeWhile_eq_self {α : Type} (p : α → Bool) (l : List α)
    (h : ∀ x ∈ l, p x = true) : l.takeWhile p = l := by
  induction l with
  | nil => rfl
  | cons x xs ih =>
    simp only [List.takeWhile_cons, h x (List.mem_cons_self x xs), if_true]
    rw [ih fun y hy => h y (List.mem_cons_of_mem x hy)]

theorem dropWhile_eq_self_all {α : Type} (p : α → Bool) (l : List α)
    (h : ∀ x ∈ l, p x = false) : l.dropWhile p = l := by
  cases l with
  | nil => rfl
  | cons x xs => simp [List.dropWhile_cons, h x (List.mem_cons_self x xs)]

theorem jsTrim_eq_self (l : List Char) (h : ∀ c ∈ l, isWS c = false) :
    jsTrim l = l := by
  unfold jsTrim
  rw [dropWhile_eq_self_all isWS l h,
    dropWhile_eq_self_all isWS l.reverse (fun c hc => h c (List.mem_reverse.mp hc)),
    List.reverse_reverse]

theorem jsTrim_cons_space (l : List Char) : jsTrim (' ' :: l) = jsTrim l := by
  unfold jsTrim
  rw [List.dropWhile_cons, if_pos (by decide : isWS ' ' = true)]

/-! ### Decimal printing parses back to the same number -/

theorem digitCh_isDigit (d : Nat) : isDigitCh (digitCh d) = true := by
  rcases d with _ | _ | _ | _ | _ | _ | _ | _ | _ | d
  all_goals first
    | decide
    | exact (by decide : isDigitCh '9' = true)

theorem hexVal_digitCh : ∀ d < 10, hexVal (digitCh d) = d := by decide

theorem digitCh_ne_zero (d : Nat) (hd : d ≠ 0) : digitCh d ≠ '0' := by
  rcases d with _ | _ | _ | _ | _ | _ | _ | _ | _ | d
  · exact absurd rfl hd
  all_goals first
    | decide
    | exact (by decide : ('9' : Char) ≠ '0')

theorem decChars_isDigitCh (n : Nat) : ∀ c ∈ decChars n, isDigitCh c = true := by
  intro c hc
  rcases List.mem_map.mp hc with ⟨d, _, rfl⟩
  exact digitCh_isDigit d

theorem decChars_ne_nil (n : Nat) (hn : n ≠ 0) : decChars n ≠ [] := by
  unfold decChars
  rw [decDigitsRev_eq_digits]
  simp [Nat.digits_ne_nil_iff_ne_zero.mpr hn]

theorem decChars_head_ne_zero (n : Nat) (hn : n ≠ 0) (c : Char) (cs : List Char)
    (hc : decChars n = c :: cs) : c ≠ '0' := by
  have hnil : Nat.digits 10 n ≠ [] := Nat.digits_ne_nil_iff_ne_zero.mpr hn
  have hhead : (decChars n).head? = some c := by rw [hc]; rfl
  unfold decChars at hhead
  rw [decDigitsRev_eq_digits, List.head?_map, List.head?_reverse,
    List.getLast?_eq_getLast _ hnil] at hhead
  have hd : c = digitCh ((Nat.digits 10 n).getLast hnil) := by
    simpa using hhead.symm
  rw [hd]
  exact digitCh_ne_zero _ (Nat.getLast_digit_ne_zero 10 hn)

theorem foldl_eq_ofDigits (L : List Nat) :
    ∀ acc : Nat, L.foldl (fun a d => a * 10 + d) acc
      = acc * 10 ^ L.length + Nat.ofDigits 10 L.reverse := by
  induction L with
  | nil => intro acc; simp [Nat.ofDigits]
  | cons d L ih =>
    intro acc
    rw [List.foldl_cons, ih (acc * 10 + d), List.reverse_cons, Nat.ofDigits_append]
    simp only [List.length_cons, List.length_reverse]
    have h1 : Nat.ofDigits 10 [d] = d := by simp [Nat.ofDigits]
    rw [h1]
    ring

theorem foldl_map_digitCh (L : List Nat) (hL : ∀ d ∈ L, d < 10) :
    ∀ acc : Nat, (L.map digitCh).foldl (fun a c => a * 10 + hexVal c) acc
      = L.foldl (fun a d => a * 10 + d) acc := by
  induction L with
  | nil => intro acc; rfl
  | cons d L ih =>
    intro acc
    simp only [List.map_cons, List.foldl_cons]
    rw [hexVal_digitCh d (hL d (List.mem_cons_self d L))]
    exact ih (fun x hx => hL x (List.mem_cons_of_mem d hx)) _

theorem decChars_foldl (n : Nat) :
    (decChars n).foldl (fun a c => a * 10 + hexVal c) 0 = n := by
  unfold decChars
  rw [decDigitsRev_eq_digits]
  rw [foldl_map_digitCh _ (fun d hd =>
    Nat.digits_lt_base (by norm_num) (List.mem_reverse.mp hd))]
  rw [foldl_eq_ofDigits]
  simp [Nat.ofDigits_digits]

theorem parseRun_decChars (n : Nat) (hn : n ≠ 0) :
    parseRun 10 (decChars n) = some n := by
  unfold parseRun
  have h10 : isRadixDigit 10 = isDigitCh := by
    funext c; simp [isRadixDigit]
  rw [h10, takeWhile_eq_self _ _ (decChars_isDigitCh n)]
  rw [if_neg (by simpa [List.isEmpty_iff] using decChars_ne_nil n hn)]
  rw [decChars_foldl]

theorem parseDigitsRun_decChars (n : Nat) (hn : n ≠ 0) :
    parseDigitsRun (decChars n) = some n := by
  obtain ⟨c, cs, hc⟩ := List.exists_cons_of_ne_nil (decChars_ne_nil n hn)
  have hc0 : c ≠ '0' := decChars_head_ne_zero n hn c cs hc
  rw [← parseRun_decChars n hn, hc]
  cases cs with
  | nil => rfl
  | cons c1 rest =>
    show (if c = '0' ∧ (c1 = 'x' ∨ c1 = 'X') then _ else _) = _
    rw [if_neg (fun hh => hc0 hh.1)]

theorem jsParseIntChars_decChars (n : Nat) (hn : n ≠ 0) :
    jsParseIntChars (decChars n) = some (n : Int) := by
  obtain ⟨c, cs, hc⟩ := List.exists_cons_of_ne_nil (decChars_ne_nil n hn)
  have hcd : isDigitCh c = true :=
    decChars_isDigitCh n c (hc ▸ List.mem_cons_self c cs)
  have hdrop : (decChars n).dropWhile isWS = c :: cs := by
    rw [hc]
    exact dropWhile_eq_self_of_head _ _ _ (isWS_eq_false_of_isDigitCh hcd)
  unfold jsParseIntChars
  rw [hdrop]
  simp only []
  rw [if_neg (ne_of_isDigitCh hcd (by decide)),
    if_neg (ne_of_isDigitCh hcd (by decide)),
    ← hc, parseDigitsRun_decChars n hn]
  rfl

/-! ### The set accumulator: `pages.add` and the range loop -/

theorem setAdd_toFinset (l : List Nat) (x : Nat) :
    (setAdd l x).toFinset = insert x l.toFinset := by
  unfold setAdd
  split
  · rename_i h
    simp [List.mem_toFinset, h]
  · simp [List.toFinset_append]
    rw [Finset.union_comm]
    rfl

theorem setAdd_nodup (l : List Nat) (x : Nat) (h : l.Nodup) : (setAdd l x).Nodup := by
  unfold setAdd
  split
  · exact h
  · rename_i hx
    simp [List.nodup_append, h, hx]

theorem foldl_nodup {β : Type} (f : List Nat → β → List Nat)
    (hf : ∀ acc x, acc.Nodup → (f acc x).Nodup) :
    ∀ (L : List β) (acc : List Nat), acc.Nodup → (L.foldl f acc).Nodup := by
  intro L
  induction L with
  | nil => intro acc h; exact h
  | cons x L ih => intro acc h; exact ih _ (hf acc x h)

theorem addRange_nodup (l : List Nat) (s e : Int) (bound : Nat) (h : l.Nodup) :
    (addRange l s e bound).Nodup := by
  unfold addRange
  apply foldl_nodup
  · intro acc k hacc
    dsimp only
    split
    · exact setAdd_nodup _ _ hacc
    · exact hacc
  · exact h

theorem range_fold_toFinset (N a : Nat) (cnt : Nat) (hcnt : a + cnt ≤ N) :
    ∀ l : List Nat,
      ((List.range cnt).foldl
        (fun acc (k : Nat) =>
          if 0 < ((a : Int) + 1) + (k : Int) ∧ ((a : Int) + 1) + (k : Int) ≤ (N : Int)
          then setAdd acc (((a : Int) + 1) + (k : Int) - 1).toNat else acc) l).toFinset
      = l.toFinset ∪ (Finset.range cnt).image (fun k => a + k) := by
  induction cnt with
  | zero => intro l; simp
  | succ cnt ih =>
    intro l
    rw [List.range_succ, List.foldl_append, List.foldl_cons, List.foldl_nil]
    have hguard : (0 : Int) < ((a : Int) + 1) + ((cnt : Nat) : Int)
        ∧ ((a : Int) + 1) + ((cnt : Nat) : Int) ≤ (N : Int) := by
      constructor <;> [positivity; exact_mod_cast by omega]
    rw [if_pos hguard]
    have htoNat : ((((a : Int) + 1) + ((cnt : Nat) : Int)) - 1).toNat = a + cnt := by omega
    rw [htoNat, setAdd_toFinset, ih (by omega), Finset.range_succ, Finset.image_insert]
    rw [Finset.insert_eq, Finset.insert_eq]
    rw [Finset.union_left_comm]

theorem addRange_toFinset (l : List Nat) (a b N : Nat) (hab : a ≤ b) (hbN : b < N) :
    (addRange l ((a : Int) + 1) ((b : Int) + 1) N).toFinset
      = l.toFinset ∪ Finset.Icc a b := by
  have hmin : min ((a : Int) + 1) ((b : Int) + 1) = (a : Int) + 1 := by
    apply min_eq_left; exact_mod_cast by omega
  have hmax : max ((a : Int) + 1) ((b : Int) + 1) = (b : Int) + 1 := by
    apply max_eq_right; exact_mod_cast by omega
  have hcnt : (((b : Int) + 1) - ((a : Int) + 1) + 1).toNat = b - a + 1 := by omega
  simp only [addRange, hmin, hmax, hcnt]
  rw [range_fold_toFinset N a (b - a + 1) (by omega) l]
  congr 1
  ext x
  simp only [Finset.mem_image, Finset.mem_range, Finset.mem_Icc]
  constructor
  · rintro ⟨k, hk, rfl⟩; omega
  · intro hx; exact ⟨x - a, by omega, by omega⟩

/-! ### Parsing a single emitted token -/

theorem rangeToken_chars (a b : Nat) :
    ∀ c ∈ rangeToken a b, isDigitCh c = true ∨ c = '-' := by
  intro c hc
  unfold rangeToken at hc
  split at hc
  · exact Or.inl (decChars_isDigitCh _ c hc)
  · rcases List.mem_append.mp hc with h | h
    · exact Or.inl (decChars_isDigitCh _ c h)
    · rcases List.mem_cons.mp h with rfl | h
      · exact Or.inr rfl
      · exact Or.inl (decChars_isDigitCh _ c h)

theorem rangeToken_ne_nil (a b : Nat) : rangeToken a b ≠ [] := by
  unfold rangeToken
  split
  · exact decChars_ne_nil _ (Nat.succ_ne_zero a)
  · intro h
    exact decChars_ne_nil _ (Nat.succ_ne_zero a) (List.append_eq_nil.mp h).1

theorem hyphen_not_mem_decChars (n : Nat) : '-' ∉ decChars n := by
  intro h
  have := decChars_isDigitCh n _ h
  exact absurd this (by decide)

theorem applyToken_spec (N : Nat) (acc : List Nat) (a b : Nat)
    (hab : a ≤ b) (hbN : b < N) :
    (applyToken N acc (rangeToken a b)).toFinset = acc.toFinset ∪ Finset.Icc a b := by
  by_cases hEq : a = b
  · subst hEq
    have htok : rangeToken a a = decChars (a + 1) := by unfold rangeToken; rw [if_pos rfl]
    have hnomem : (decChars (a + 1)).contains '-' = false := by
      simpa using hyphen_not_mem_decChars (a + 1)
    unfold applyToken
    rw [htok, hnomem]
    simp only [Bool.false_eq_true, if_false]
    rw [jsParseIntChars_decChars (a + 1) (Nat.succ_ne_zero a)]
    have hcast : ((a + 1 : Nat) : Int) = (a : Int) + 1 := by push_cast; ring
    rw [hcast]
    dsimp only
    rw [if_pos ⟨by positivity, by exact_mod_cast by omega⟩]
    have htoNat : ((a : Int) + 1 - 1).toNat = a := by omega
    rw [htoNat, setAdd_toFinset, Finset.Icc_self, Finset.insert_eq, Finset.union_comm]
  · have hlt : a < b := lt_of_le_of_ne hab hEq
    have htok : rangeToken a b = decChars (a + 1) ++ '-' :: decChars (b + 1) := by
      unfold rangeToken; rw [if_neg hEq]
    have hsplit : splitOnChar '-' (rangeToken a b) = [decChars (a + 1), decChars (b + 1)] := by
      rw [htok]
      have h2 : splitOnChar '-' ('-' :: decChars (b + 1))
          = [] :: splitOnChar '-' (decChars (b + 1)) := splitOnChar_cons_sep _ _
      rw [splitOnChar_of_not_mem _ _ (hyphen_not_mem_decChars (b + 1))] at h2
      have := splitOnChar_append '-' (decChars (a + 1)) ('-' :: decChars (b + 1))
        (hyphen_not_mem_decChars (a + 1)) [] [decChars (b + 1)] h2
      simpa using this
    have hmem : (rangeToken a b).contains '-' = true := by
      rw [htok]
      simp
    unfold applyToken
    rw [hmem, if_pos rfl, hsplit]
    simp only [List.getD_cons_zero, List.getD_cons_succ]
    rw [jsParseIntChars_decChars (a + 1) (Nat.succ_ne_zero a),
      jsParseIntChars_decChars (b + 1) (Nat.succ_ne_zero b)]
    have hca : ((a + 1 : Nat) : Int) = (a : Int) + 1 := by push_cast; ring
    have hcb : ((b + 1 : Nat) : Int) = (b : Int) + 1 := by push_cast; ring
    rw [hca, hcb]
    exact addRange_toFinset acc a b N hab hbN

theorem applyToken_nodup (N : Nat) (acc : List Nat) (part : List Char)
    (h : acc.Nodup) : (applyToken N acc part).Nodup := by
  unfold applyToken
  dsimp only
  split
  · split
    · exact addRange_nodup _ _ _ _ h
    · exact h
  · split
    · split
      · exact setAdd_nodup _ _ h
      · exact h
    · exact h

/-! ### The run-merging loop of `updateRangeFromSet` -/

/-- The `(start, end)` pairs produced by the run-merging loop
(proof-side companion of `mergeRuns`). -/
def runPairs (s e : Nat) : List Nat → List (Nat × Nat)
  | [] => [(s, e)]
  | x :: xs => if x = e + 1 then runPairs s x xs else (s, e) :: runPairs x x xs

theorem mergeRuns_eq_map (xs : List Nat) : ∀ s e,
    mergeRuns s e xs = (runPairs s e xs).map (fun p => rangeToken p.1 p.2) := by
  induction xs with
  | nil => intro s e; rfl
  | cons x xs ih =>
    intro s e
    unfold mergeRuns runPairs
    split
    · exact ih s x
    · rw [List.map_cons, ih x x]

theorem runPairs_ne_nil (xs : List Nat) : ∀ s e, runPairs s e xs ≠ [] := by
  induction xs with
  | nil => intro s e; simp [runPairs]
  | cons x xs ih =>
    intro s e
    unfold runPairs
    split
    · exact ih s x
    · simp

theorem runPairs_bounds (xs : List Nat) : ∀ s e, s ≤ e →
    ∀ p ∈ runPairs s e xs, p.1 ≤ p.2 ∧ (p.2 = e ∨ p.2 ∈ xs) := by
  induction xs with
  | nil =>
    intro s e hse p hp
    simp only [runPairs, List.mem_singleton] at hp
    subst hp
    exact ⟨hse, Or.inl rfl⟩
  | cons x xs ih =>
    intro s e hse p hp
    unfold runPairs at hp
    split at hp
    · rename_i hx
      have := ih s x (by omega) p hp
      refine ⟨this.1, Or.inr ?_⟩
      rcases this.2 with h | h
      · rw [h]; exact List.mem_cons_self x xs
      · exact List.mem_cons_of_mem x h
    · rcases List.mem_cons.mp hp with rfl | hp2
      · exact ⟨hse, Or.inl rfl⟩
      · have := ih x x le_rfl p hp2
        refine ⟨this.1, Or.inr ?_⟩
        rcases this.2 with h | h
        · rw [h]; exact List.mem_cons_self x xs
        · exact List.mem_cons_of_mem x h

theorem runPairs_union (xs : List Nat) : ∀ s e, s ≤ e → List.Chain (· < ·) e xs →
    (runPairs s e xs).foldr (fun p r => Finset.Icc p.1 p.2 ∪ r) ∅
      = Finset.Icc s e ∪ xs.toFinset := by
  induction xs with
  | nil => intro s e _ _; simp [runPairs]
  | cons x xs ih =>
    intro s e hse hchain
    rcases hchain with _ | ⟨hex, hchain⟩
    unfold runPairs
    split
    · rename_i hx
      rw [ih s x (by omega) hchain]
      ext y
      simp only [Finset.mem_union, Finset.mem_Icc, List.toFinset_cons, Finset.mem_insert,
        List.mem_toFinset]
      constructor
      · rintro (⟨h1, h2⟩ | hy)
        · rcases Nat.lt_or_ge y x with hlt | hge
          · exact Or.inl ⟨h1, by omega⟩
          · exact Or.inr (Or.inl (by omega))
        · exact Or.inr (Or.inr hy)
      · rintro (⟨h1, h2⟩ | rfl | hy)
        · exact Or.inl ⟨h1, by omega⟩
        · exact Or.inl ⟨by omega, by omega⟩
        · exact Or.inr hy
    · rename_i hx
      rw [List.foldr_cons, ih x x le_rfl hchain]
      ext y
      simp only [Finset.mem_union, Finset.mem_Icc, List.toFinset_cons, Finset.mem_insert,
        List.mem_toFinset]
      constructor
      · rintro (⟨h1, h2⟩ | ⟨h1, h2⟩ | hy)
        · exact Or.inl ⟨h1, h2⟩
        · exact Or.inr (Or.inl (by omega))
        · exact Or.inr (Or.inr hy)
      · rintro (⟨h1, h2⟩ | rfl | hy)
        · exact Or.inl ⟨h1, h2⟩
        · exact Or.inr (Or.inl ⟨le_rfl, le_rfl⟩)
        · exact Or.inr (Or.inr hy)

/-! ### Splitting the joined token list recovers the tokens -/

theorem comma_not_mem_token (t : List Char)
    (h : ∀ c ∈ t, isDigitCh c = true ∨ c = '-') : ',' ∉ t := by
  intro hc
  rcases h ',' hc with hd | hd
  · exact absurd hd (by decide)
  · exact absurd hd (by decide)

theorem token_no_ws (t : List Char)
    (h : ∀ c ∈ t, isDigitCh c = true ∨ c = '-') : ∀ c ∈ t, isWS c = false := by
  intro c hc
  rcases h c hc with hd | rfl
  · exact isWS_eq_false_of_isDigitCh hd
  · decide

theorem split_join (toks : List (List Char)) (hne : toks ≠ [])
    (h : ∀ t ∈ toks, ∀ c ∈ t, isDigitCh c = true ∨ c = '-') :
    (splitOnChar ',' (joinSep [',', ' '] toks)).map jsTrim = toks := by
  induction toks with
  | nil => exact absurd rfl hne
  | cons t rest ih =>
    have ht := h t (List.mem_cons_self t rest)
    cases rest with
    | nil =>
      show (splitOnChar ',' (joinSep [',', ' '] [t])).map jsTrim = [t]
      rw [show joinSep [',', ' '] [t] = t from rfl,
        splitOnChar_of_not_mem ',' t (comma_not_mem_token t ht)]
      simp [jsTrim_eq_self t (token_no_ws t ht)]
    | cons t2 rest2 =>
      have hrest : (splitOnChar ',' (joinSep [',', ' '] (t2 :: rest2))).map jsTrim
          = t2 :: rest2 :=
        ih (by simp) (fun u hu => h u (List.mem_cons_of_mem t hu))
      obtain ⟨hd, tl, hS⟩ :
          ∃ hd tl, splitOnChar ',' (joinSep [',', ' '] (t2 :: rest2)) = hd :: tl := by
        match hS : splitOnChar ',' (joinSep [',', ' '] (t2 :: rest2)) with
        | [] => exact absurd hS (splitOnChar_ne_nil _ _)
        | a :: b => exact ⟨a, b, rfl⟩
      have hjoin : joinSep [',', ' '] (t :: t2 :: rest2)
          = t ++ ',' :: ' ' :: joinSep [',', ' '] (t2 :: rest2) := by
        show t ++ [',', ' '] ++ joinSep [',', ' '] (t2 :: rest2) = _
        rw [List.append_assoc]
        rfl
      have hsplit2 : splitOnChar ',' (',' :: ' ' :: joinSep [',', ' '] (t2 :: rest2))
          = [] :: (' ' :: hd) :: tl := by
        rw [splitOnChar_cons_sep]
        congr 1
        show splitOnChar ',' (' ' :: joinSep [',', ' '] (t2 :: rest2)) = (' ' :: hd) :: tl
        unfold splitOnChar
        rw [if_neg (by decide : (' ' : Char) ≠ ','), hS]
      rw [hjoin, splitOnChar_append ',' t _ (comma_not_mem_token t ht) [] ((' ' :: hd) :: tl)
        hsplit2]
      rw [hS] at hrest
      simp only [List.map_cons] at hrest ⊢
      obtain ⟨h1, h2⟩ := List.cons_eq_cons.mp hrest
      rw [List.append_nil, jsTrim_eq_self t (token_no_ws t ht), jsTrim_cons_space, h1, h2]

/-! ### The round-trip theorem for the selection model -/

theorem dedup_toFinset_eq (l : List Nat) : l.dedup.toFinset = l.toFinset := by
  ext x; simp [List.mem_dedup]

theorem tokens_fold_toFinset (N : Nat) (pairs : List (Nat × Nat))
    (hp : ∀ p ∈ pairs, p.1 ≤ p.2 ∧ p.2 < N) :
    ∀ acc : List Nat,
      ((pairs.map (fun p => rangeToken p.1 p.2)).foldl (applyToken N) acc).toFinset
        = acc.toFinset ∪ pairs.foldr (fun p r => Finset.Icc p.1 p.2 ∪ r) ∅ := by
  induction pairs with
  | nil => intro acc; simp
  | cons p ps ih =>
    intro acc
    have hph := hp p (List.mem_cons_self p ps)
    rw [List.map_cons, List.foldl_cons, List.foldr_cons,
      ih (fun q hq => hp q (List.mem_cons_of_mem p hq)),
      applyToken_spec N acc p.1 p.2 hph.1 hph.2, Finset.union_assoc]

theorem parse_fold_nodup (N : Nat) (parts : List (List Char)) :
    (parts.foldl (applyToken N) []).Nodup :=
  foldl_nodup (applyToken N) (fun acc part => applyToken_nodup N acc part) parts []
    List.nodup_nil

theorem parseRangeTextChars_nodup (cs : List Char) (N : Nat) :
    (parseRangeTextChars cs N).Nodup := by
  unfold parseRangeTextChars
  exact ((List.perm_insertionSort _ _).nodup_iff).mpr (parse_fold_nodup N _)

theorem parseRangeTextChars_sorted (cs : List Char) (N : Nat) :
    List.Sorted (· ≤ ·) (parseRangeTextChars cs N) := by
  unfold parseRangeTextChars
  exact List.sorted_insertionSort _ _

/-- Round-trip at the level of index sets: parsing the text generated from a
selection recovers exactly the selected set, provided every selected index
is a valid page index. -/
theorem parse_toTextRange_toFinset (N : Nat) (sel : List Nat)
    (h : ∀ i ∈ sel, i < N) :
    (parseRangeTextChars (toTextRangeChars sel) N).toFinset = sel.toFinset := by
  have hLperm : (List.insertionSort (· ≤ ·) sel.dedup).Perm sel.dedup :=
    List.perm_insertionSort _ _
  have hLnd : (List.insertionSort (· ≤ ·) sel.dedup).Nodup :=
    (hLperm.nodup_iff).mpr (List.nodup_dedup sel)
  have hLsorted : List.Sorted (· < ·) (List.insertionSort (· ≤ ·) sel.dedup) :=
    (List.sorted_insertionSort _ _).lt_of_le hLnd
  have hLfin : (List.insertionSort (· ≤ ·) sel.dedup).toFinset = sel.toFinset := by
    rw [List.toFinset_eq_of_perm _ _ hLperm, dedup_toFinset_eq]
  have hLmem : ∀ i ∈ List.insertionSort (· ≤ ·) sel.dedup, i < N := by
    intro i hi
    exact h i (List.mem_dedup.mp (hLperm.mem_iff.mp hi))
  cases hL : List.insertionSort (· ≤ ·) sel.dedup with
  | nil =>
    have : toTextRangeChars sel = [] := by unfold toTextRangeChars; rw [hL]
    rw [this]
    have hparse : parseRangeTextChars [] N = [] := rfl
    rw [hparse, ← hLfin, hL]
  | cons x xs =>
    rw [hL] at hLsorted hLmem hLfin
    have hchain : List.Chain (· < ·) x xs := List.chain_iff_pairwise.mpr hLsorted
    have hp : ∀ p ∈ runPairs x x xs, p.1 ≤ p.2 ∧ p.2 < N := by
      intro p hp
      have hb := runPairs_bounds xs x x le_rfl p hp
      refine ⟨hb.1, ?_⟩
      rcases hb.2 with h2 | h2
      · rw [h2]; exact hLmem x (List.mem_cons_self x xs)
      · exact hLmem p.2 (List.mem_cons_of_mem x h2)
    have htext : toTextRangeChars sel = joinSep [',', ' '] (mergeRuns x x xs) := by
      unfold toTextRangeChars; rw [hL]
    have htokchars : ∀ t ∈ mergeRuns x x xs, ∀ c ∈ t, isDigitCh c = true ∨ c = '-' := by
      intro t ht
      rw [mergeRuns_eq_map] at ht
      rcases List.mem_map.mp ht with ⟨p, _, rfl⟩
      exact rangeToken_chars p.1 p.2
    have hne : mergeRuns x x xs ≠ [] := by
      rw [mergeRuns_eq_map]
      simp only [ne_eq, List.map_eq_nil_iff]
      exact runPairs_ne_nil xs x x
    rw [htext]
    unfold parseRangeTextChars
    rw [List.toFinset_eq_of_perm _ _ (List.perm_insertionSort _ _),
      split_join (mergeRuns x x xs) hne htokchars, mergeRuns_eq_map,
      tokens_fold_toFinset N (runPairs x x xs) hp [],
      runPairs_union xs x x le_rfl hchain, ← hLfin]
    simp [Finset.insert_eq]

/-- Round-trip at the level of lists: the parsed result is the canonical
sorted duplicate-free enumeration of the selection. -/
theorem parse_toTextRange_eq (N : Nat) (sel : List Nat) (h : ∀ i ∈ sel, i < N) :
    parseRangeTextChars (toTextRangeChars sel) N
      = List.insertionSort (· ≤ ·) sel.dedup := by
  have h1 : (parseRangeTextChars (toTextRangeChars sel) N).toFinset
      = (List.insertionSort (· ≤ ·) sel.dedup).toFinset := by
    rw [parse_toTextRange_toFinset N sel h,
      List.toFinset_eq_of_perm _ _ (List.perm_insertionSort _ _), dedup_toFinset_eq]
  have hnd1 := parseRangeTextChars_nodup (toTextRangeChars sel) N
  have hnd2 : (List.insertionSort (· ≤ ·) sel.dedup).Nodup :=
    ((List.perm_insertionSort _ _).nodup_iff).mpr (List.nodup_dedup sel)
  have hperm := List.perm_of_nodup_nodup_toFinset_eq hnd1 hnd2 h1
  exact List.eq_of_perm_of_sorted hperm
    (parseRangeTextChars_sorted (toTextRangeChars sel) N)
    (List.sorted_insertionSort _ _)

/-! ## The SplitPDF component state machine

`SplitPDF.tsx` keeps the loaded document metadata, the selected page set
(a JS `Set<number>`, modelled as a duplicate-free list in insertion order,
since `Array.from` enumerates a `Set` in insertion order), the range text,
the thumbnails and the error message. -/

/-- The user-facing error strings of the tools (SplitPDF.tsx and the rotate
tool). -/
def errFileTooLargeMsg : String :=
  "File is too large for browser processing. Please use files under 100MB."

def errCouldNotLoadMsg : String :=
  "Could not load PDF. It might be corrupted or protected."

def errEmptyExtractMsg : String :=
  "Please select at least one page to extract."

def errEmptyRotateMsg : String :=
  "Please select at least one page to rotate."

structure PDFMetadata where
  name : String
  pageCount : Nat
deriving DecidableEq

structure SplitState where
  pdfInfo : Option PDFMetadata
  selectedPages : List Nat
  rangeText : String
  thumbnails : List String
  error : Option String
deriving DecidableEq

/-- `togglePage(index)`: flip membership in the selection set (`Set.delete`
removes, `Set.add` appends at the end of insertion order), then re-derive
the range text from the new set. -/
def togglePage (st : SplitState) (index : Nat) : SplitState :=
  let newSet := if index ∈ st.selectedPages
    then st.selectedPages.erase index
    else st.selectedPages ++ [index]
  { st with selectedPages := newSet, rangeText := toTextRange newSet }

/-- `selectAll()`: select `[0, pageCount)` and re-derive the text;
a no-op when no document is loaded. -/
def selectAll (st : SplitState) : SplitState :=
  match st.pdfInfo with
  | none => st
  | some info =>
    let all := List.range info.pageCount
    { st with selectedPages := all, rangeText := toTextRange all }

/-- `clearSelection()`: empty the set and blank the text. -/
def clearSelection (st : SplitState) : SplitState :=
  { st with selectedPages := [], rangeText := "" }

/-- Direct edit of the range-text input: `onChange` only stores the new
text (`setRangeText(e.target.value)`); the selection set is not re-derived. -/
def editRangeText (st : SplitState) (t : String) : SplitState :=
  { st with rangeText := t }

/-- The size ceiling of SplitPDF's `handleFileChange`: 100 MB. -/
def SPLIT_MAX_BYTES : Nat := 100 * 1024 * 1024

/-- `handleFileChange` of SplitPDF.tsx.  `decoded` is the outcome of the
external codec/rasterizer (`none` models a rejected `getDocument` promise:
corrupt or password-protected bytes; `some (n, thumbs)` a successful
decode with `n` pages and the rendered thumbnails).  The returned `Bool`
records whether the codec was invoked at all. -/
def splitHandleFileChange (st : SplitState) (fileName : String) (fileSize : Nat)
    (isPdfMime : Bool) (decoded : Option (Nat × List String)) : SplitState × Bool :=
  if isPdfMime then
    if fileSize > SPLIT_MAX_BYTES then
      ({ st with error := some errFileTooLargeMsg }, false)
    else
      let st1 := { st with
        error := none, thumbnails := [], selectedPages := [], rangeText := "" }
      match decoded with
      | none => ({ st1 with error := some errCouldNotLoadMsg }, true)
      | some (n, thumbs) =>
        ({ st1 with
          pdfInfo := some { name := fileName, pageCount := n },
          thumbnails := thumbs }, true)
  else (st, false)

/-- The resolution step of `handleSplit` in range mode:
`rangeText ? parseRangeText(rangeText, pageCount) : Array.from(selectedPages)`. -/
def resolveIndices (info : PDFMetadata) (st : SplitState) : List Nat :=
  if st.rangeText ≠ "" then parseRangeText st.rangeText info.pageCount
  else st.selectedPages

/-- The range-mode branch of `handleSplit`: resolve the selection; on an
empty resolution set the error and produce no output; otherwise copy the
source pages at the resolved indices, in resolved order, into a new
document. -/
def handleSplitRange {α : Type} (st : SplitState) (doc : List α) :
    SplitState × Option (List α) :=
  match st.pdfInfo with
  | none => (st, none)
  | some info =>
    let st0 := { st with error := none }
    let indices := resolveIndices info st
    if indices.isEmpty then
      ({ st0 with error := some errEmptyExtractMsg }, none)
    else
      (st0, some (indices.filterMap (fun i => doc.get? i)))

/-! ## The rotate tool's state machine (second component in JPGToPDF.tsx) -/

structure RotateState where
  pdfInfo : Option PDFMetadata
  selectedPages : List Nat
  thumbnails : List String
  error : Option String
deriving DecidableEq

/-- `handleFileChange` of the rotate tool: same shape as SplitPDF's, but
with no size ceiling check — every PDF-typed file goes straight to the
codec. -/
def rotateHandleFileChange (st : RotateState) (fileName : String) (fileSize : Nat)
    (isPdfMime : Bool) (decoded : Option (Nat × List String)) : RotateState × Bool :=
  if isPdfMime then
    let st1 := { st with error := none, thumbnails := [], selectedPages := [] }
    match decoded with
    | none => ({ st1 with error := some errCouldNotLoadMsg }, true)
    | some (n, thumbs) =>
      ({ st1 with
        pdfInfo := some { name := fileName, pageCount := n },
        thumbnails := thumbs }, true)
  else (st, false)

/-- `handleRotate(angle)`: fails when the selection is empty; otherwise adds
`angle` to the existing rotation of every selected page and outputs the new
per-page rotations. -/
def handleRotate (st : RotateState) (rotations : List Int) (angle : Int) :
    RotateState × Option (List Int) :=
  match st.pdfInfo with
  | none => (st, none)
  | some _ =>
    if st.selectedPages.isEmpty then
      ({ st with error := some errEmptyRotateMsg }, none)
    else
      ({ st with error := none },
        some ((rotations.enum).map
          (fun p => if p.1 ∈ st.selectedPages then p.2 + angle else p.2)))

/-! ## The MergePDF component: queue admission, reordering, merging -/

/-- Per-file ceiling of the merge queue: 50 MB
(`MAX_FILE_SIZE_BYTES` in MergePDF.tsx). -/
def MAX_FILE_SIZE_BYTES : Nat := 50 * 1024 * 1024

/-- A queued file (`FileItem` in MergePDF.tsx; the formatted size string is
derived display data and omitted). -/
structure FileItem where
  id : String
  name : String
  sizeRaw : Nat
deriving DecidableEq

/-- A candidate file offered to `addFiles` (name, byte size, MIME type). -/
structure CandidateFile where
  name : String
  size : Nat
  isPdfMime : Bool
deriving DecidableEq

/-- `addFiles` (MergePDF.tsx): keep only PDF-typed files, report how many
were skipped for being oversize, and append the remaining files to the
queue.  `mkId` stands for the random id generator. -/
def addFiles (queue : List FileItem) (files : List CandidateFile)
    (mkId : CandidateFile → String) : List FileItem × Option String :=
  let pdfFiles := files.filter (fun f => f.isPdfMime)
  let tooLarge := pdfFiles.filter (fun f => f.size > MAX_FILE_SIZE_BYTES)
  let validFiles := pdfFiles.filter (fun f => f.size ≤ MAX_FILE_SIZE_BYTES)
  (queue ++ validFiles.map (fun f => { id := mkId f, name := f.name, sizeRaw := f.size }),
    if tooLarge.length > 0 then
      some (toString tooLarge.length ++ " file(s) skipped. Maximum size per file is 50MB.")
    else none)

/-- The destructuring swap
`[newFiles[index], newFiles[targetIndex]] = [newFiles[targetIndex], newFiles[index]]`. -/
def listSwap {A : Type} (l : List A) (i j : Nat) : List A :=
  match l[i]?, l[j]? with
  | some a, some b => (l.set i b).set j a
  | _, _ => l

/-- `moveFile(id, direction)` (MergePDF.tsx): locate the entry by id
(no-op when absent), compute the neighbouring target position, and swap
when the target is inside the queue. -/
def moveFile (files : List FileItem) (id : String) (up : Bool) : List FileItem :=
  match files.findIdx? (fun f => f.id = id) with
  | none => files
  | some index =>
    let targetIndex : Int := if up then (index : Int) - 1 else (index : Int) + 1
    if 0 ≤ targetIndex ∧ targetIndex < (files.length : Int) then
      listSwap files index targetIndex.toNat
    else files

/-- `onDragOverItem` (MergePDF.tsx): while an entry is being dragged over
position `index`, remove it from its old position and re-insert it at
`index`, and remember `index` as the new dragged position; a no-op when no
drag is active or the entry is dragged over itself. -/
def dragOverStep (files : List FileItem) (draggedIndex : Option Nat) (index : Nat) :
    List FileItem × Option Nat :=
  match draggedIndex with
  | none => (files, none)
  | some dI =>
    if dI = index then (files, some dI)
    else
      match files[dI]? with
      | none => (files, some dI)
      | some draggedItem => ((files.eraseIdx dI).insertIdx index draggedItem, some index)

/-! ### The merge transform and the numbering pass -/

/-- The merge loop of `handleMerge`: for each queued document in queue
order, copy all of its pages (in order) onto the end of the output. -/
def mergedPages {A : Type} (docs : List (List A)) : List A :=
  docs.foldl (fun acc d => acc ++ d) []

/-- The six anchor positions of the numbering options. -/
inductive NumPosition
  | bottomCenter | bottomRight | bottomLeft | topCenter | topRight | topLeft
deriving DecidableEq

/-- The label drawn on page `i` (0-based) of a `total`-page merged
document: `Page i+1 of total`. -/
def pageLabel (i total : Nat) : String :=
  "Page " ++ toString (i + 1) ++ " of " ++ toString total

/-- The `switch (options.position)` of `handleMerge`, computing the label
anchor from the page size, the measured text width, the font size and the
fixed 20-point margin. -/
def anchorXY (pos : NumPosition) (width height textWidth fontSize : Rat) : Rat × Rat :=
  let margin : Rat := 20
  match pos with
  | .bottomCenter => (width / 2 - textWidth / 2, margin)
  | .bottomRight => (width - textWidth - margin, margin)
  | .bottomLeft => (margin, margin)
  | .topCenter => (width / 2 - textWidth / 2, height - margin - fontSize)
  | .topRight => (width - textWidth - margin, height - margin - fontSize)
  | .topLeft => (margin, height - margin - fontSize)

/-- One text-drawing operation issued by the numbering pass. -/
structure DrawOp where
  text : String
  x : Rat
  y : Rat
  size : Rat
deriving DecidableEq

/-- The numbering pass of `handleMerge`: one pass over the merged page
sequence (pages given by width × height), drawing `Page i+1 of total` at
the configured anchor.  `widthOf` stands for
`font.widthOfTextAtSize(text, fontSize)`. -/
def numberingPass (pages : List (Rat × Rat)) (pos : NumPosition) (fontSize : Rat)
    (widthOf : String → Rat → Rat) : List DrawOp :=
  let total := pages.length
  pages.enum.map (fun p =>
    let text := pageLabel p.1 total
    let tw := widthOf text fontSize
    let xy := anchorXY pos p.2.1 p.2.2 tw fontSize
    { text := text, x := xy.1, y := xy.2, size := fontSize })

/-! ### Progress reporting -/

/-- `Math.round(num / den)` for non-negative operands. -/
def jsRound (num den : Nat) : Nat := (2 * num + den) / (2 * den)

/-- The sequence of values fed to `setMergeProgress` during one successful
run of `handleMerge`: `0`, then `round((i+1)/fileCount * 50)` per source
document, then either `50 + round((i+1)/totalPages * 50)` per merged page
(numbering enabled) or a single `100`. -/
def mergeProgressSeq (fileCount totalPages : Nat) (numberingEnabled : Bool) : List Nat :=
  [0]
    ++ (List.range fileCount).map (fun i => jsRound ((i + 1) * 50) fileCount)
    ++ (if numberingEnabled then
          (List.range totalPages).map (fun i => 50 + jsRound ((i + 1) * 50) totalPages)
        else [100])

/-- The sequence of values fed to `setProgress` during one successful run
of the burst branch of `handleSplit`: `0`, then
`round((i+1)/pageCount * 100)` per page. -/
def burstProgressSeq (pageCount : Nat) : List Nat :=
  [0] ++ (List.range pageCount).map (fun i => jsRound ((i + 1) * 100) pageCount)

/-- The sequence of values fed to `setProgress` during one successful run
of the extract branch of `handleSplit`. -/
def extractProgressSeq : List Nat := [0, 100]

/-! ### Export: object URLs -/

/-- Events on temporary object URLs during one export. -/
inductive UrlEvent
  | createUrl (id : Nat)
  | clickLink
  | revokeUrl (id : Nat)
deriving DecidableEq

/-- `downloadBlob` (SplitPDF.tsx): create the object URL, click the
temporary link, then revoke the URL. -/
def downloadBlobEvents (u : Nat) : List UrlEvent :=
  [.createUrl u, .clickLink, .revokeUrl u]

/-- The download tail of `handleRotate` (rotate tool): create, click,
revoke. -/
def rotateDownloadEvents (u : Nat) : List UrlEvent :=
  [.createUrl u, .clickLink, .revokeUrl u]

/-- The download tail of `handleMerge` (MergePDF.tsx): create the object
URL and click the link; no `URL.revokeObjectURL` call occurs. -/
def mergeDownloadEvents (u : Nat) : List UrlEvent :=
  [.createUrl u, .clickLink]

/-! ### Helper lemmas for the merge pipeline, progress and queue claims -/

theorem foldl_append_eq_flatten {A : Type} (docs : List (List A)) :
    ∀ acc : List A, docs.foldl (fun acc d => acc ++ d) acc = acc ++ docs.flatten := by
  induction docs with
  | nil => intro acc; simp
  | cons d docs ih =>
    intro acc
    rw [List.foldl_cons, ih (acc ++ d), List.flatten_cons]
    simp

theorem mergedPages_eq_flatten {A : Type} (docs : List (List A)) :
    mergedPages docs = docs.flatten := by
  unfold mergedPages
  rw [foldl_append_eq_flatten]
  simp

theorem jsRound_mono (den num1 num2 : Nat) (h : num1 ≤ num2) :
    jsRound num1 den ≤ jsRound num2 den :=
  Nat.div_le_div_right (by omega)

theorem jsRound_le (num den cap : Nat) (hden : 0 < den) (h : num ≤ cap * den) :
    jsRound num den ≤ cap := by
  unfold jsRound
  have hlt : 2 * num + den < (cap + 1) * (2 * den) := by nlinarith
  exact Nat.lt_succ_iff.mp ((Nat.div_lt_iff_lt_mul (by omega)).mpr hlt)

theorem jsRound_full (cap den : Nat) (hden : 0 < den) : jsRound (cap * den) den = cap := by
  unfold jsRound
  have h1 : 2 * (cap * den) + den = den + 2 * den * cap := by ring
  rw [h1, Nat.add_mul_div_left den cap (by omega), Nat.div_eq_of_lt (by omega)]
  omega

theorem chain_le_map_range (f : Nat → Nat) (n : Nat) (hf : ∀ i, f i ≤ f (i + 1)) :
    List.Chain' (· ≤ ·) ((List.range n).map f) := by
  rw [List.chain'_iff_get]
  intro i hi
  simp only [List.length_map, List.length_range] at hi
  simp only [List.get_eq_getElem, List.getElem_map, List.getElem_range]
  exact hf i

theorem perm_get_cons_eraseIdx {A : Type} :
    ∀ (l : List A) (n : Nat) (h : n < l.length), l.Perm (l.get ⟨n, h⟩ :: l.eraseIdx n) := by
  intro l
  induction l with
  | nil => intro n h; simp at h
  | cons x t ih =>
    intro n h
    cases n with
    | zero => simp
    | succ m =>
      have hm : m < t.length := by simpa using h
      have step := (ih m hm).cons x
      refine step.trans ?_
      exact List.Perm.swap (t.get ⟨m, hm⟩) x (t.eraseIdx m)

theorem listSwap_comm {A : Type} (l : List A) (i j : Nat) (hij : i ≠ j) :
    listSwap l i j = listSwap l j i := by
  unfold listSwap
  cases hi : l[i]? with
  | none =>
    cases hj : l[j]? with
    | none => rfl
    | some b => rfl
  | some a =>
    cases hj : l[j]? with
    | none => rfl
    | some b => exact List.set_comm b a l hij

theorem listSwap_adjacent_perm {A : Type} :
    ∀ (l : List A) (k : Nat), (listSwap l k (k + 1)).Perm l := by
  intro l
  induction l with
  | nil => intro k; simp [listSwap]
  | cons x t ih =>
    intro k
    cases k with
    | zero =>
      cases t with
      | nil => simp [listSwap]
      | cons y t2 =>
        show (listSwap (x :: y :: t2) 0 1).Perm (x :: y :: t2)
        simp only [listSwap, List.getElem?_cons_zero, List.getElem?_cons_succ]
        exact List.Perm.swap x y t2
    | succ m =>
      show (listSwap (x :: t) (m + 1) (m + 2)).Perm (x :: t)
      cases h1 : t[m]? with
      | none =>
        have h2 : t[m + 1]? = none := by
          rw [List.getElem?_eq_none_iff] at h1 ⊢
          omega
        simp [listSwap, h1, h2]
      | some a =>
        cases h2 : t[m + 1]? with
        | none => simp [listSwap, h1, h2]
        | some b =>
          have hswap : listSwap (x :: t) (m + 1) (m + 2) = x :: listSwap t m (m + 1) := by
            simp [listSwap, h1, h2]
          rw [hswap]
          exact (ih m).cons x

/-! ## Claim theorems -/

/-- C1: for every valid set `S` of 0-based page indices over an `N`-page
document (modelled as a duplicate-free insertion-ordered list, i.e. the JS
`Set`), re-parsing the textual range expression derived from `S` yields
exactly `S` again: `setFromText(toTextRange(S)) == S` as index sets, and
the parsed list is the canonical ascending enumeration of `S`. -/
theorem claim_C1_roundtrip (N : Nat) (sel : List Nat) (h : ∀ i ∈ sel, i < N) :
    (parseRangeText (toTextRange sel) N).toFinset = sel.toFinset
      ∧ parseRangeText (toTextRange sel) N = List.insertionSort (· ≤ ·) sel.dedup :=
  ⟨parse_toTextRange_toFinset N sel h, parse_toTextRange_eq N sel h⟩

theorem claim_C1_roundtrip_witness :
    (∀ i ∈ [0, 1, 2, 4], i < 5)
      ∧ (parseRangeText (toTextRange [0, 1, 2, 4]) 5).toFinset = [0, 1, 2, 4].toFinset
      ∧ parseRangeText (toTextRange [0, 1, 2, 4]) 5
        = List.insertionSort (· ≤ ·) [0, 1, 2, 4].dedup :=
  ⟨by decide, claim_C1_roundtrip 5 [0, 1, 2, 4] (by decide)⟩

/-- Concrete sample states used to instantiate the claims. -/
def sampleSplitEmpty1 : SplitState :=
  { pdfInfo := some { name := "d", pageCount := 1 }, selectedPages := [],
    rangeText := "", thumbnails := [], error := none }

def sampleSplitSel3 : SplitState :=
  { pdfInfo := some { name := "d", pageCount := 3 }, selectedPages := [1],
    rangeText := "2", thumbnails := [], error := none }

def sampleSplitEmpty5 : SplitState :=
  { pdfInfo := some { name := "doc.pdf", pageCount := 5 }, selectedPages := [],
    rangeText := "", thumbnails := [], error := none }

def sampleRotateEmpty4 : RotateState :=
  { pdfInfo := some { name := "r", pageCount := 4 }, selectedPages := [],
    thumbnails := [], error := none }

/-- C2 counterexample: a direct edit of the range text does not re-derive
the selection set, so the two representations disagree right after the
edit: with one page loaded and nothing selected, typing `"1"` makes the
text parse to `{0}` while the set is still empty. -/
theorem claim_C2_sync_counterexample :
    (parseRangeText (editRangeText sampleSplitEmpty1 "1").rangeText 1).toFinset
      ≠ (editRangeText sampleSplitEmpty1 "1").selectedPages.toFinset := by
  decide

/-- C2 (amended): after `togglePage`, `selectAll` and `clearSelection` the
two representations agree — parsing the current range text with the page
count as bound yields exactly the current selected set; a direct text edit
updates only the text and may leave the set stale until the next
set-mutating operation. -/
theorem claim_C2_sync_after_set_mutations (st : SplitState) (info : PDFMetadata)
    (hinfo : st.pdfInfo = some info)
    (hwf : ∀ i ∈ st.selectedPages, i < info.pageCount)
    (idx : Nat) (hidx : idx < info.pageCount) :
    (parseRangeText (togglePage st idx).rangeText info.pageCount).toFinset
        = (togglePage st idx).selectedPages.toFinset
      ∧ (parseRangeText (selectAll st).rangeText info.pageCount).toFinset
        = (selectAll st).selectedPages.toFinset
      ∧ (parseRangeText (clearSelection st).rangeText info.pageCount).toFinset
        = (clearSelection st).selectedPages.toFinset := by
  refine ⟨?_, ?_, ?_⟩
  · unfold togglePage
    apply parse_toTextRange_toFinset
    intro i hi
    split at hi
    · exact hwf i (List.mem_of_mem_erase hi)
    · rcases List.mem_append.mp hi with h1 | h1
      · exact hwf i h1
      · rw [List.mem_singleton.mp h1]; exact hidx
  · unfold selectAll
    rw [hinfo]
    apply parse_toTextRange_toFinset
    intro i hi
    exact List.mem_range.mp hi
  · unfold clearSelection
    rfl

theorem claim_C2_sync_after_set_mutations_witness :
    (sampleSplitSel3.pdfInfo = some { name := "d", pageCount := 3 })
      ∧ (∀ i ∈ sampleSplitSel3.selectedPages,
          i < (PDFMetadata.mk "d" 3).pageCount)
      ∧ 0 < (PDFMetadata.mk "d" 3).pageCount
      ∧ ((parseRangeText (togglePage sampleSplitSel3 0).rangeText
            (PDFMetadata.mk "d" 3).pageCount).toFinset
          = (togglePage sampleSplitSel3 0).selectedPages.toFinset
        ∧ (parseRangeText (selectAll sampleSplitSel3).rangeText
            (PDFMetadata.mk "d" 3).pageCount).toFinset
          = (selectAll sampleSplitSel3).selectedPages.toFinset
        ∧ (parseRangeText (clearSelection sampleSplitSel3).rangeText
            (PDFMetadata.mk "d" 3).pageCount).toFinset
          = (clearSelection sampleSplitSel3).selectedPages.toFinset) :=
  ⟨rfl, by decide, by decide,
    claim_C2_sync_after_set_mutations sampleSplitSel3 (PDFMetadata.mk "d" 3) rfl
      (by decide) 0 (by decide)⟩

/-- C3 counterexample: the selection `{2, 0}` (inserted in that order) over
a five-page document, with the range text hand-cleared, extracts the pages
in the Set's insertion order `[page2, page0]`, not ascending
`[page0, page2]`. -/
theorem claim_C3_extract_order_counterexample :
    (handleSplitRange (editRangeText (togglePage (togglePage sampleSplitEmpty5 2) 0) "")
        ["p0", "p1", "p2", "p3", "p4"]).2 = some ["p2", "p0"]
      ∧ some ["p2", "p0"] ≠ some ["p0", "p2"] := by
  decide

/-- C3 (amended): whenever the range text is non-empty — which is the case
for every selection built through the synchronising set mutations — the
resolved index list is sorted ascending, so pages are extracted in
ascending index order regardless of insertion order; in particular the
toggle-built selection `{2, 0}` over a five-page document extracts
`[page0, page2]`.  Only when the text has been hand-emptied does the
extraction fall back to the Set's insertion order. -/
theorem claim_C3_extract_ascending (st : SplitState) (info : PDFMetadata)
    (hne : st.rangeText ≠ "") :
    List.Sorted (· ≤ ·) (resolveIndices info st)
      ∧ (handleSplitRange (togglePage (togglePage sampleSplitEmpty5 2) 0)
          ["p0", "p1", "p2", "p3", "p4"]).2 = some ["p0", "p2"] := by
  constructor
  · unfold resolveIndices
    rw [if_pos hne]
    exact parseRangeTextChars_sorted _ _
  · decide

theorem claim_C3_extract_ascending_witness :
    ((editRangeText sampleSplitEmpty5 "1, 3").rangeText ≠ "")
      ∧ (List.Sorted (· ≤ ·) (resolveIndices (PDFMetadata.mk "doc.pdf" 5)
          (editRangeText sampleSplitEmpty5 "1, 3"))
        ∧ (handleSplitRange (togglePage (togglePage sampleSplitEmpty5 2) 0)
            ["p0", "p1", "p2", "p3", "p4"]).2 = some ["p0", "p2"]) :=
  ⟨by decide, claim_C3_extract_ascending (editRangeText sampleSplitEmpty5 "1, 3")
    (PDFMetadata.mk "doc.pdf" 5) (by decide)⟩

/-- C4: invoked with an empty resolved selection, the extract transform and
the rotate transform set the empty-selection error message and produce no
output; the loaded document, selection, text and thumbnails are unchanged. -/
theorem claim_C4_empty_selection {α : Type} (st : SplitState) (info : PDFMetadata)
    (hinfo : st.pdfInfo = some info) (hempty : resolveIndices info st = [])
    (doc : List α) (rst : RotateState) (rinfo : PDFMetadata)
    (hrinfo : rst.pdfInfo = some rinfo) (hrempty : rst.selectedPages = [])
    (rotations : List Int) (angle : Int) :
    (handleSplitRange st doc).2 = none
      ∧ (handleSplitRange st doc).1.pdfInfo = st.pdfInfo
      ∧ (handleSplitRange st doc).1.selectedPages = st.selectedPages
      ∧ (handleSplitRange st doc).1.rangeText = st.rangeText
      ∧ (handleSplitRange st doc).1.thumbnails = st.thumbnails
      ∧ (handleSplitRange st doc).1.error = some errEmptyExtractMsg
      ∧ (handleRotate rst rotations angle).2 = none
      ∧ (handleRotate rst rotations angle).1.pdfInfo = rst.pdfInfo
      ∧ (handleRotate rst rotations angle).1.selectedPages = rst.selectedPages
      ∧ (handleRotate rst rotations angle).1.thumbnails = rst.thumbnails
      ∧ (handleRotate rst rotations angle).1.error = some errEmptyRotateMsg := by
  have hsplit : handleSplitRange st doc
      = ({ { st with error := none } with error := some errEmptyExtractMsg }, none) := by
    unfold handleSplitRange
    rw [hinfo]
    simp only [hempty, List.isEmpty_nil, if_true]
  have hrot : handleRotate rst rotations angle
      = ({ rst with error := some errEmptyRotateMsg }, none) := by
    unfold handleRotate
    rw [hrinfo]
    simp only [hrempty, List.isEmpty_nil, if_true]
  rw [hsplit, hrot]
  exact ⟨rfl, rfl, rfl, rfl, rfl, rfl, rfl, rfl, rfl, rfl, rfl⟩

theorem claim_C4_empty_selection_witness :
    (sampleSplitEmpty5.pdfInfo = some { name := "doc.pdf", pageCount := 5 })
      ∧ resolveIndices (PDFMetadata.mk "doc.pdf" 5) sampleSplitEmpty5 = []
      ∧ (sampleRotateEmpty4.pdfInfo = some { name := "r", pageCount := 4 })
      ∧ sampleRotateEmpty4.selectedPages = []
      ∧ ((handleSplitRange sampleSplitEmpty5 ["a", "b"]).2 = none
        ∧ (handleRotate sampleRotateEmpty4 [0, 90] 90).2 = none) := by
  have h := claim_C4_empty_selection sampleSplitEmpty5 (PDFMetadata.mk "doc.pdf" 5) rfl
    (by decide) ["a", "b"] sampleRotateEmpty4 (PDFMetadata.mk "r" 4) rfl rfl [0, 90] 90
  exact ⟨rfl, by decide, rfl, rfl, h.1, h.2.2.2.2.2.2.1⟩

/-- C5 counterexample: the rotate tool's load path performs no size check —
a 200 MB PDF goes straight to the codec (the codec is invoked), the
document loads, and no FileTooLarge error is raised. -/
theorem claim_C5_size_gate_counterexample :
    (rotateHandleFileChange (RotateState.mk none [] [] none) "big.pdf"
        (200 * 1024 * 1024) true (some (3, []))).2 = true
      ∧ (rotateHandleFileChange (RotateState.mk none [] [] none) "big.pdf"
        (200 * 1024 * 1024) true (some (3, []))).1.pdfInfo
        = some { name := "big.pdf", pageCount := 3 }
      ∧ (rotateHandleFileChange (RotateState.mk none [] [] none) "big.pdf"
        (200 * 1024 * 1024) true (some (3, []))).1.error = none := by
  decide

/-- C5 (amended): the split tool's load path rejects a file above its
100 MB ceiling before any decode attempt (codec never invoked), sets the
FileTooLarge error, and leaves the loaded-document state unchanged; the
merge queue's admission likewise never lets a file above its 50 MB ceiling
enter the queue (no decode happens at admission at all).  The rotate
tool's load path, however, performs no size check. -/
theorem claim_C5_size_gate (st : SplitState) (name : String) (size : Nat)
    (hsize : size > SPLIT_MAX_BYTES) (decoded : Option (Nat × List String))
    (queue : List FileItem) (files : List CandidateFile)
    (mkId : CandidateFile → String) :
    (splitHandleFileChange st name size true decoded).2 = false
      ∧ (splitHandleFileChange st name size true decoded).1.pdfInfo = st.pdfInfo
      ∧ (splitHandleFileChange st name size true decoded).1.selectedPages
        = st.selectedPages
      ∧ (splitHandleFileChange st name size true decoded).1.rangeText = st.rangeText
      ∧ (splitHandleFileChange st name size true decoded).1.thumbnails = st.thumbnails
      ∧ (splitHandleFileChange st name size true decoded).1.error
        = some errFileTooLargeMsg
      ∧ (∀ item ∈ (addFiles queue files mkId).1,
          item ∈ queue ∨ item.sizeRaw ≤ MAX_FILE_SIZE_BYTES) := by
  have hs : splitHandleFileChange st name size true decoded
      = ({ st with error := some errFileTooLargeMsg }, false) := by
    unfold splitHandleFileChange
    rw [if_pos rfl, if_pos hsize]
  rw [hs]
  refine ⟨rfl, rfl, rfl, rfl, rfl, rfl, ?_⟩
  intro item hitem
  unfold addFiles at hitem
  rcases List.mem_append.mp hitem with h1 | h1
  · exact Or.inl h1
  · rcases List.mem_map.mp h1 with ⟨f, hf, rfl⟩
    rcases List.mem_filter.mp hf with ⟨-, hcond⟩
    simp only [decide_eq_true_eq] at hcond
    exact Or.inr hcond

theorem claim_C5_size_gate_witness :
    (101 * 1024 * 1024 > SPLIT_MAX_BYTES)
      ∧ ((splitHandleFileChange sampleSplitSel3 "big.pdf" (101 * 1024 * 1024) true
          (some (7, []))).2 = false
        ∧ (splitHandleFileChange sampleSplitSel3 "big.pdf" (101 * 1024 * 1024) true
          (some (7, []))).1.pdfInfo = sampleSplitSel3.pdfInfo
        ∧ (∀ item ∈ (addFiles []
            [CandidateFile.mk "huge.pdf" (60 * 1024 * 1024) true]
            (fun f => f.name)).1,
          item ∈ ([] : List FileItem) ∨ item.sizeRaw ≤ MAX_FILE_SIZE_BYTES)) := by
  have h := claim_C5_size_gate sampleSplitSel3 "big.pdf" (101 * 1024 * 1024)
    (by decide) (some (7, [])) []
    [CandidateFile.mk "huge.pdf" (60 * 1024 * 1024) true] (fun f => f.name)
  exact ⟨by decide, h.1, h.2.1, h.2.2.2.2.2.2⟩

def sampleSplitLoaded : SplitState :=
  { pdfInfo := some { name := "old.pdf", pageCount := 5 }, selectedPages := [0],
    rangeText := "1", thumbnails := ["t"], error := none }

/-- C6 counterexample: when decoding the new file fails, SplitPDF keeps
the previously loaded document's metadata but has already cleared its
selection, range text and thumbnails — exactly the half-updated state the
claim rules out (old document retained, its selection and thumbnails
gone). -/
theorem claim_C6_load_failure_counterexample :
    (splitHandleFileChange sampleSplitLoaded "new.pdf" 1000 true none).1.pdfInfo
        = some (PDFMetadata.mk "old.pdf" 5)
      ∧ (splitHandleFileChange sampleSplitLoaded "new.pdf" 1000 true none).1.selectedPages
        = []
      ∧ sampleSplitLoaded.selectedPages = [0]
      ∧ (splitHandleFileChange sampleSplitLoaded "new.pdf" 1000 true none).1.thumbnails
        = []
      ∧ sampleSplitLoaded.thumbnails = ["t"] := by
  decide

/-- C6 (amended): on a decode failure the previously loaded document's
metadata is retained (never replaced), but the selection, range text and
thumbnails were already cleared at the start of the load attempt, so the
session is left half-updated rather than untouched; the same holds for the
rotate tool. -/
theorem claim_C6_load_failure (st : SplitState) (rst : RotateState)
    (name : String) (size : Nat) (hsize : ¬ size > SPLIT_MAX_BYTES) :
    (splitHandleFileChange st name size true none).1.pdfInfo = st.pdfInfo
      ∧ (splitHandleFileChange st name size true none).1.selectedPages = []
      ∧ (splitHandleFileChange st name size true none).1.rangeText = ""
      ∧ (splitHandleFileChange st name size true none).1.thumbnails = []
      ∧ (splitHandleFileChange st name size true none).1.error
        = some errCouldNotLoadMsg
      ∧ (rotateHandleFileChange rst name size true none).1.pdfInfo = rst.pdfInfo
      ∧ (rotateHandleFileChange rst name size true none).1.selectedPages = []
      ∧ (rotateHandleFileChange rst name size true none).1.thumbnails = []
      ∧ (rotateHandleFileChange rst name size true none).1.error
        = some errCouldNotLoadMsg := by
  have hs : splitHandleFileChange st name size true none
      = ({ st with
          error := some errCouldNotLoadMsg, thumbnails := [], selectedPages := [],
          rangeText := "" }, true) := by
    unfold splitHandleFileChange
    rw [if_pos rfl, if_neg hsize]
  have hr : rotateHandleFileChange rst name size true none
      = ({ rst with
          error := some errCouldNotLoadMsg, thumbnails := [], selectedPages := [] },
        true) := by
    unfold rotateHandleFileChange
    rw [if_pos rfl]
  rw [hs, hr]
  exact ⟨rfl, rfl, rfl, rfl, rfl, rfl, rfl, rfl, rfl⟩

theorem claim_C6_load_failure_witness :
    (¬ 1000 > SPLIT_MAX_BYTES)
      ∧ ((splitHandleFileChange sampleSplitSel3 "new.pdf" 1000 true none).1.pdfInfo
          = sampleSplitSel3.pdfInfo
        ∧ (splitHandleFileChange sampleSplitSel3 "new.pdf" 1000 true none).1.selectedPages
          = []) := by
  have h := claim_C6_load_failure sampleSplitSel3 sampleRotateEmpty4 "new.pdf" 1000
    (by decide)
  exact ⟨by decide, h.1, h.2.1⟩

/-- C7: merging a queue of documents with page counts `[n1, ..., nk]`
concatenates all pages strictly in queue order into one output of
`n1 + ... + nk` pages; the numbering pass is one pass over the full merged
sequence, labelling page `i` (0-based) with `Page i+1 of Total` counted
across the whole output, at the configured anchor, with the horizontal
centre of a centred label equal to the page's horizontal centre. -/
theorem claim_C7_concatenate_numbering (docs : List (List (Rat × Rat)))
    (pos : NumPosition) (fontSize : Rat) (widthOf : String → Rat → Rat) :
    (mergedPages docs).length = (docs.map List.length).sum
      ∧ mergedPages docs = docs.flatten
      ∧ (numberingPass (mergedPages docs) pos fontSize widthOf).length
        = (mergedPages docs).length
      ∧ (∀ i (h : i < (numberingPass (mergedPages docs) pos fontSize widthOf).length),
          ((numberingPass (mergedPages docs) pos fontSize widthOf).get ⟨i, h⟩).text
              = pageLabel i (mergedPages docs).length
            ∧ ((numberingPass (mergedPages docs) pos fontSize widthOf).get ⟨i, h⟩).size
              = fontSize)
      ∧ (∀ w ht tw fs : Rat,
          (anchorXY NumPosition.bottomCenter w ht tw fs).1 + tw / 2 = w / 2
            ∧ (anchorXY NumPosition.topCenter w ht tw fs).1 + tw / 2 = w / 2
            ∧ (anchorXY NumPosition.bottomCenter w ht tw fs).2 = 20
            ∧ (anchorXY NumPosition.topLeft w ht tw fs).2 = ht - 20 - fs) := by
  refine ⟨?_, mergedPages_eq_flatten docs, ?_, ?_, ?_⟩
  · rw [mergedPages_eq_flatten]
    exact List.length_flatten docs
  · unfold numberingPass
    simp
  · intro i h
    unfold numberingPass at h ⊢
    simp only [List.get_eq_getElem, List.getElem_map, List.length_map] at h ⊢
    simp [List.getElem_enum]
  · intro w ht tw fs
    refine ⟨?_, ?_, rfl, rfl⟩
    · show w / 2 - tw / 2 + tw / 2 = w / 2
      ring
    · show w / 2 - tw / 2 + tw / 2 = w / 2
      ring

theorem claim_C7_concatenate_numbering_witness :
    (mergedPages [[((100 : Rat), (200 : Rat)), (100, 200)],
        [(50, 60), (50, 60), (50, 60)]]).length
      = ([[((100 : Rat), (200 : Rat)), (100, 200)],
        [(50, 60), (50, 60), (50, 60)]].map List.length).sum
    ∧ ((numberingPass (mergedPages [[((100 : Rat), (200 : Rat)), (100, 200)],
          [(50, 60), (50, 60), (50, 60)]]) NumPosition.bottomCenter 10
          (fun _ _ => 30)).get ⟨2, by decide⟩).text
      = pageLabel 2 (mergedPages [[((100 : Rat), (200 : Rat)), (100, 200)],
          [(50, 60), (50, 60), (50, 60)]]).length := by
  have h := claim_C7_concatenate_numbering
    [[((100 : Rat), (200 : Rat)), (100, 200)], [(50, 60), (50, 60), (50, 60)]]
    NumPosition.bottomCenter 10 (fun _ _ => 30)
  exact ⟨h.1, (h.2.2.2.1 2 (by decide)).1⟩

/-! ### Progress sequence lemmas -/

theorem progress_phase_chain (c k : Nat) :
    List.Chain' (· ≤ ·) ((List.range k).map (fun i => jsRound ((i + 1) * c) k)) :=
  chain_le_map_range _ k (fun i => jsRound_mono k _ _ (Nat.mul_le_mul_right c (by omega)))

theorem progress_phase_le (c k : Nat) (hk : 0 < k) :
    ∀ p ∈ (List.range k).map (fun i => jsRound ((i + 1) * c) k), p ≤ c := by
  intro p hp
  rcases List.mem_map.mp hp with ⟨i, hi, rfl⟩
  have hik : i + 1 ≤ k := List.mem_range.mp hi
  exact jsRound_le _ _ _ hk (by nlinarith)

theorem progress_phase_last (c k : Nat) (hk : 1 ≤ k) :
    ((List.range k).map (fun i => jsRound ((i + 1) * c) k)).getLast? = some c := by
  obtain ⟨m, rfl⟩ : ∃ m, k = m + 1 := ⟨k - 1, by omega⟩
  rw [List.range_succ, List.map_append, List.map_cons, List.map_nil,
    List.getLast?_concat]
  congr 1
  have hc : (m + 1) * c = c * (m + 1) := by ring
  rw [hc, jsRound_full c (m + 1) (by omega)]

theorem progress_phase_ne_nil (c k : Nat) (hk : 1 ≤ k) :
    ((List.range k).map (fun i => jsRound ((i + 1) * c) k)) ≠ [] := by
  simp only [ne_eq, List.map_eq_nil_iff, List.range_eq_nil]
  omega

/-- C8 counterexample: a run that completes successfully with zero pages in
its final phase ends short of 100: merging two zero-page documents with
numbering enabled ends at 50, and bursting a zero-page document ends at 0. -/
theorem claim_C8_progress_counterexample :
    (mergeProgressSeq 2 0 true).getLast? = some 50
      ∧ (burstProgressSeq 0).getLast? = some 0 := by
  decide

/-- C8 (amended): every reported progress sequence is non-decreasing and
stays within 0..100; the first (merge) phase never reports above its 50%
budget; and the final value is exactly 100 provided the final phase
processes at least one unit of work (at least one merged page when
numbering is enabled; at least one page for burst) — with zero units the
run ends at the end of the previous phase (50, or 0 for an empty burst). -/
theorem claim_C8_progress (k t n : Nat) (e : Bool) (hk : 1 ≤ k) (ht : 1 ≤ t)
    (hn : 1 ≤ n) :
    List.Chain' (· ≤ ·) (mergeProgressSeq k t e)
      ∧ (∀ p ∈ mergeProgressSeq k t e, p ≤ 100)
      ∧ (∀ p ∈ (List.range k).map (fun i => jsRound ((i + 1) * 50) k), p ≤ 50)
      ∧ (mergeProgressSeq k t true).getLast? = some 100
      ∧ (mergeProgressSeq k t false).getLast? = some 100
      ∧ List.Chain' (· ≤ ·) (burstProgressSeq n)
      ∧ (∀ p ∈ burstProgressSeq n, p ≤ 100)
      ∧ (burstProgressSeq n).getLast? = some 100
      ∧ List.Chain' (· ≤ ·) extractProgressSeq
      ∧ extractProgressSeq.getLast? = some 100 := by
  have hP1ne := progress_phase_ne_nil 50 k hk
  have hP1last := progress_phase_last 50 k hk
  have htail_true_ne : ((List.range t).map (fun i => 50 + jsRound ((i + 1) * 50) t)) ≠ [] := by
    simp only [ne_eq, List.map_eq_nil_iff, List.range_eq_nil]
    omega
  have hjoin1 : ∀ tail : List Nat,
      List.Chain' (· ≤ ·) tail →
      (∀ y ∈ tail.head?, 50 ≤ y) →
      List.Chain' (· ≤ ·)
        (([0] ++ (List.range k).map (fun i => jsRound ((i + 1) * 50) k)) ++ tail) := by
    intro tail hct hhd
    rw [List.chain'_append]
    refine ⟨?_, hct, ?_⟩
    · rw [List.chain'_append]
      refine ⟨List.chain'_singleton 0, progress_phase_chain 50 k, ?_⟩
      intro x hx y _
      simp only [List.getLast?_singleton, Option.mem_def, Option.some.injEq] at hx
      omega
    · intro x hx y hy
      rw [List.getLast?_append_of_ne_nil _ hP1ne, hP1last] at hx
      simp only [Option.mem_def, Option.some.injEq] at hx
      subst hx
      exact hhd y hy
  have htail_head : ∀ y ∈ ((List.range t).map
      (fun i => 50 + jsRound ((i + 1) * 50) t)).head?, 50 ≤ y := by
    intro y hy
    obtain ⟨m, rfl⟩ : ∃ m, t = m + 1 := ⟨t - 1, by omega⟩
    rw [List.range_succ_eq_map, List.map_cons, List.head?_cons] at hy
    simp only [Option.mem_def, Option.some.injEq] at hy
    omega
  have htail_chain : List.Chain' (· ≤ ·)
      ((List.range t).map (fun i => 50 + jsRound ((i + 1) * 50) t)) := by
    apply chain_le_map_range
    intro i
    have := jsRound_mono t ((i + 1) * 50) ((i + 1 + 1) * 50) (by omega)
    omega
  refine ⟨?_, ?_, progress_phase_le 50 k (by omega), ?_, ?_, ?_, ?_, ?_, ?_, ?_⟩
  · unfold mergeProgressSeq
    cases e with
    | true =>
      simp only [if_true]
      exact hjoin1 _ htail_chain htail_head
    | false =>
      simp only [Bool.false_eq_true, if_false]
      refine hjoin1 [100] (List.chain'_singleton 100) ?_
      intro y hy
      simp only [List.head?_cons, Option.mem_def, Option.some.injEq] at hy
      omega
  · intro p hp
    unfold mergeProgressSeq at hp
    rcases List.mem_append.mp hp with h1 | h1
    · rcases List.mem_append.mp h1 with h2 | h2
      · simp only [List.mem_singleton] at h2
        omega
      · have := progress_phase_le 50 k (by omega) p h2
        omega
    · split at h1
      · rcases List.mem_map.mp h1 with ⟨i, hi, rfl⟩
        have hik : i + 1 ≤ t := List.mem_range.mp hi
        have : jsRound ((i + 1) * 50) t ≤ 50 :=
          jsRound_le _ _ _ (by omega) (by nlinarith)
        omega
      · simp only [List.mem_singleton] at h1
        omega
  · unfold mergeProgressSeq
    rw [if_pos rfl, List.getLast?_append_of_ne_nil _ htail_true_ne]
    have : ((List.range t).map (fun i => 50 + jsRound ((i + 1) * 50) t)).getLast?
        = some (50 + 50) := by
      obtain ⟨m, rfl⟩ : ∃ m, t = m + 1 := ⟨t - 1, by omega⟩
      rw [List.range_succ, List.map_append, List.map_cons, List.map_nil,
        List.getLast?_concat]
      congr 1
      have hc : (m + 1) * 50 = 50 * (m + 1) := by ring
      rw [hc, jsRound_full 50 (m + 1) (by omega)]
    rw [this]
  · unfold mergeProgressSeq
    rw [if_neg (by simp), List.getLast?_append_of_ne_nil _ (by simp)]
    rfl
  · unfold burstProgressSeq
    rw [List.chain'_append]
    refine ⟨List.chain'_singleton 0, progress_phase_chain 100 n, ?_⟩
    intro x hx y _
    simp only [List.getLast?_singleton, Option.mem_def, Option.some.injEq] at hx
    omega
  · intro p hp
    unfold burstProgressSeq at hp
    rcases List.mem_append.mp hp with h1 | h1
    · simp only [List.mem_singleton] at h1
      omega
    · exact progress_phase_le 100 n (by omega) p h1
  · unfold burstProgressSeq
    rw [List.getLast?_append_of_ne_nil _ (progress_phase_ne_nil 100 n hn)]
    exact progress_phase_last 100 n hn
  · simp [extractProgressSeq, List.chain'_cons]
  · rfl

theorem claim_C8_progress_witness :
    (1 ≤ 2 ∧ 1 ≤ 5 ∧ 1 ≤ 3)
      ∧ (List.Chain' (· ≤ ·) (mergeProgressSeq 2 5 true)
        ∧ (mergeProgressSeq 2 5 true).getLast? = some 100
        ∧ (burstProgressSeq 3).getLast? = some 100) := by
  have h := claim_C8_progress 2 5 3 true (by decide) (by decide) (by decide)
  exact ⟨⟨by decide, by decide, by decide⟩, h.1, h.2.2.2.1, h.2.2.2.2.2.2.2.1⟩

/-- C9 counterexample: the merge tool's download path creates an object URL
and clicks the link but never revokes the URL — the reference leaks. -/
theorem claim_C9_url_release_counterexample :
    UrlEvent.createUrl 0 ∈ mergeDownloadEvents 0
      ∧ UrlEvent.revokeUrl 0 ∉ mergeDownloadEvents 0 := by
  decide

/-- C9 (amended): the single-file download paths of the split tool
(`downloadBlob`, also used for the burst archive) and of the rotate tool
revoke every object URL they create promptly after the click; the merge
tool's download path does not revoke its URL. -/
theorem claim_C9_url_release (u v : Nat)
    (h : UrlEvent.createUrl v ∈ downloadBlobEvents u) :
    UrlEvent.revokeUrl v ∈ downloadBlobEvents u
      ∧ UrlEvent.revokeUrl v ∈ rotateDownloadEvents u := by
  simp only [downloadBlobEvents, List.mem_cons, List.mem_singleton,
    List.not_mem_nil, or_false] at h
  rcases h with h | h | h
  · obtain rfl : v = u := by injection h
    constructor
    · simp [downloadBlobEvents]
    · simp [rotateDownloadEvents]
  · exact absurd h (by simp)
  · obtain rfl : v = u := by injection h
    constructor
    · simp [downloadBlobEvents]
    · simp [rotateDownloadEvents]

theorem claim_C9_url_release_witness :
    (UrlEvent.createUrl 0 ∈ downloadBlobEvents 0)
      ∧ (UrlEvent.revokeUrl 0 ∈ downloadBlobEvents 0
        ∧ UrlEvent.revokeUrl 0 ∈ rotateDownloadEvents 0) :=
  ⟨by decide, claim_C9_url_release 0 0 (by decide)⟩

/-- C10: both queue-reorder operations are pure permutations of the queue
(length and multiset of entries preserved): `moveFile` swaps the entry
with its neighbour and is a no-op when the id is absent or the target
falls outside the queue; the drag step removes the dragged entry and
reinserts it at the hovered position, preserving the relative order of all
other entries, and is a no-op when no drag is active or the entry is
dragged over itself. -/
theorem dragOverStep_some_eq (files : List FileItem) (dI idx : Nat) :
    dragOverStep files (some dI) idx
      = if dI = idx then (files, some dI)
        else match files[dI]? with
          | none => (files, some dI)
          | some draggedItem =>
            ((files.eraseIdx dI).insertIdx idx draggedItem, some idx) := rfl

theorem claim_C10_queue_reorder (files : List FileItem) (id : String) (up : Bool)
    (dI idx : Nat) (hdI : dI < files.length) (hidx : idx < files.length) :
    (moveFile files id up).Perm files
      ∧ (moveFile files id up).length = files.length
      ∧ (files.findIdx? (fun f => f.id = id) = none → moveFile files id up = files)
      ∧ dragOverStep files none idx = (files, none)
      ∧ dragOverStep files (some dI) dI = (files, some dI)
      ∧ ((dragOverStep files (some dI) idx).1).Perm files
      ∧ ((dragOverStep files (some dI) idx).1).length = files.length
      ∧ (dI ≠ idx →
          ((dragOverStep files (some dI) idx).1).eraseIdx idx = files.eraseIdx dI) := by
  have hmove : (moveFile files id up).Perm files := by
    unfold moveFile
    cases hf : files.findIdx? (fun f => decide (f.id = id)) with
    | none => exact List.Perm.refl files
    | some index =>
      dsimp only
      cases up with
      | true =>
        by_cases hg : 0 ≤ (index : Int) - 1 ∧ (index : Int) - 1 < (files.length : Int)
        · rw [if_pos rfl, if_pos hg]
          obtain ⟨m, rfl⟩ : ∃ m, index = m + 1 := ⟨index - 1, by omega⟩
          have htn : (((m + 1 : Nat) : Int) - 1).toNat = m := by omega
          rw [htn, listSwap_comm files (m + 1) m (by omega)]
          exact listSwap_adjacent_perm files m
        · rw [if_pos rfl, if_neg hg]
      | false =>
        simp only [Bool.false_eq_true, if_false]
        by_cases hg : 0 ≤ (index : Int) + 1 ∧ (index : Int) + 1 < (files.length : Int)
        · rw [if_pos hg]
          have htn : (((index : Nat) : Int) + 1).toNat = index + 1 := by omega
          rw [htn]
          exact listSwap_adjacent_perm files index
        · rw [if_neg hg]
  have hdrag : ((dragOverStep files (some dI) idx).1).Perm files := by
    rw [dragOverStep_some_eq]
    by_cases hde : dI = idx
    · rw [if_pos hde]
    · rw [if_neg hde, List.getElem?_eq_getElem hdI]
      dsimp only
      have hlen : idx ≤ (files.eraseIdx dI).length := by
        have := List.length_eraseIdx_add_one hdI
        omega
      have h1 : ((files.eraseIdx dI).insertIdx idx files[dI]).Perm
          (files[dI] :: files.eraseIdx dI) := List.perm_insertNth _ _ hlen
      have h2 := perm_get_cons_eraseIdx files dI hdI
      exact h1.trans h2.symm
  refine ⟨hmove, hmove.length_eq, ?_, rfl, ?_, hdrag, hdrag.length_eq, ?_⟩
  · intro h
    unfold moveFile
    rw [h]
  · rw [dragOverStep_some_eq, if_pos rfl]
  · intro hne
    rw [dragOverStep_some_eq, if_neg hne, List.getElem?_eq_getElem hdI]
    dsimp only
    exact List.eraseIdx_insertIdx idx (files.eraseIdx dI)

theorem claim_C10_queue_reorder_witness :
    (0 < ([FileItem.mk "a" "a.pdf" 1, FileItem.mk "b" "b.pdf" 2,
        FileItem.mk "c" "c.pdf" 3] : List FileItem).length
      ∧ 2 < ([FileItem.mk "a" "a.pdf" 1, FileItem.mk "b" "b.pdf" 2,
        FileItem.mk "c" "c.pdf" 3] : List FileItem).length)
      ∧ (moveFile [FileItem.mk "a" "a.pdf" 1, FileItem.mk "b" "b.pdf" 2,
          FileItem.mk "c" "c.pdf" 3] "b" true).Perm
        [FileItem.mk "a" "a.pdf" 1, FileItem.mk "b" "b.pdf" 2, FileItem.mk "c" "c.pdf" 3]
      ∧ ((dragOverStep [FileItem.mk "a" "a.pdf" 1, FileItem.mk "b" "b.pdf" 2,
          FileItem.mk "c" "c.pdf" 3] (some 0) 2).1).length
        = ([FileItem.mk "a" "a.pdf" 1, FileItem.mk "b" "b.pdf" 2,
          FileItem.mk "c" "c.pdf" 3] : List FileItem).length := by
  have h := claim_C10_queue_reorder
    [FileItem.mk "a" "a.pdf" 1, FileItem.mk "b" "b.pdf" 2, FileItem.mk "c" "c.pdf" 3]
    "b" true 0 2 (by decide) (by decide)
  exact ⟨⟨by decide, by decide⟩, h.1, h.2.2.2.2.2.2.1⟩

end Tools







